import Mathlib

/-!
Shallow embedding of the `RingBuffer<T>` class template from
`Cpp/Stage4/include/ringbuf.hpp` (a bounded circular FIFO queue with
wrap-around read/write pointers, an explicit empty flag, and
copy-and-swap assignment), together with proofs of its specification.

Modelling choices:
* C++ heap allocations (`new T[n]` / raw pointers) are modelled by an
  explicit allocation store `Heap T : List (List T)`; a `RingBuffer`
  value holds the index of its allocation (`buf`) instead of a raw
  pointer, and `_pHead`/`_pTail` become the `Nat` offsets
  `_pHead - _buf` / `_pTail - _buf` (pointer comparisons on pointers
  into the same array are exactly comparisons of these offsets).
* `throw` is modelled by returning `Except.error` together with the
  (unchanged) object state and heap, since the C++ methods throw before
  performing any mutation.
-/

/-- The kinds of exceptions raised by the ring buffer, one per `throw`
site in the source. -/
inductive RBErr where
  | invalidCapacity : RBErr
  | bufferFull : RBErr
  | bufferEmpty : RBErr
deriving DecidableEq, Repr

/-- The C++ exception class used at each throw site:
`std::invalid_argument` for the zero-capacity constructor check,
`std::out_of_range` for push-on-full and read-on-empty. -/
def excClass : RBErr → String
  | RBErr.invalidCapacity => "std::invalid_argument"
  | RBErr.bufferFull => "std::out_of_range"
  | RBErr.bufferEmpty => "std::out_of_range"

/-- The message carried by the exception at each throw site (ANSI colour
escapes stripped; the source uses "Failed to read element: buffer is
empty." in `pop`, with analogous wordings in `front`/`back`). -/
def excMessage : RBErr → String
  | RBErr.invalidCapacity => "Failed to allocate buffer: size cannot be zero."
  | RBErr.bufferFull => "Failed to insert element: buffer is full."
  | RBErr.bufferEmpty => "Failed to read element: buffer is empty."

/-- The allocation store: one entry per `new T[...]` allocation. -/
abbrev Heap (T : Type) : Type := List (List T)

/-- Read an allocation from the store. -/
def heapGet {T : Type} (h : Heap T) (i : Nat) : List T :=
  h.getD i []

/-- Write one slot of one allocation (`alloc[j] = v`). -/
def heapWrite {T : Type} (h : Heap T) (i j : Nat) (v : T) : Heap T :=
  h.set i ((heapGet h i).set j v)

/-- The `RingBuffer` object state: `_size`, the allocation id standing
for `_buf`, the pointer offsets `_pHead - _buf` and `_pTail - _buf`,
and the `_empty` flag. -/
structure RingBuffer where
  size : Nat
  buf : Nat
  head : Nat
  tail : Nat
  empty : Bool
deriving DecidableEq, Repr

namespace RingBuffer

/-- `RingBuffer(size_t sz)`: throws `invalid_argument` on `sz == 0`,
otherwise allocates `new T[sz]` (default-initialised contents, modelled
by an arbitrary fill value `d`) and points head and tail at the
beginning. -/
def create {T : Type} (sz : Nat) (d : T) (h : Heap T) :
    Except RBErr RingBuffer × Heap T :=
  if sz = 0 then (Except.error RBErr.invalidCapacity, h)
  else (Except.ok { size := sz, buf := h.length, head := 0, tail := 0, empty := true },
        h ++ [List.replicate sz d])

/-- `getSize()`. -/
def getSize (s : RingBuffer) : Nat := s.size

/-- `isEmpty()`: returns the `_empty` flag. -/
def isEmpty (s : RingBuffer) : Bool := s.empty

/-- `getCount()`: the four-branch case split of the source
(`_pTail == _pHead && isEmpty()`, `_pTail == _pHead && !isEmpty()`,
`_pTail > _pHead`, else inverted pointers). -/
def getCount (s : RingBuffer) : Nat :=
  if s.tail = s.head ∧ s.isEmpty = true then 0
  else if s.tail = s.head ∧ ¬s.isEmpty = true then s.getSize
  else if s.head < s.tail then s.tail - s.head
  else s.size - (s.head - s.tail)

/-- `getFree()`. -/
def getFree (s : RingBuffer) : Nat := s.getSize - s.getCount

/-- `isFull()`. -/
def isFull (s : RingBuffer) : Bool := s.getCount == s.getSize

/-- `push(const T& value)`: throws `out_of_range` when full; otherwise
wraps `_pTail` if it sits one past the end, writes the value, advances
`_pTail`, and clears the empty flag. -/
def push {T : Type} (s : RingBuffer) (h : Heap T) (v : T) :
    Except RBErr Unit × RingBuffer × Heap T :=
  if s.isFull = true then (Except.error RBErr.bufferFull, s, h)
  else
    let t := if s.tail = s.size then 0 else s.tail
    let h' := heapWrite h s.buf t v
    (Except.ok (),
     { s with tail := t + 1, empty := if s.isEmpty = true then false else s.empty },
     h')

/-- `front()`: throws `out_of_range` when empty; otherwise wraps
`_pHead` if it sits one past the end (a mutation of the object) and
returns the element under it. -/
def front {T : Type} [Inhabited T] (s : RingBuffer) (h : Heap T) :
    Except RBErr T × RingBuffer :=
  if s.isEmpty = true then (Except.error RBErr.bufferEmpty, s)
  else
    let s1 : RingBuffer := { s with head := if s.head = s.size then 0 else s.head }
    (Except.ok ((heapGet h s.buf).getD s1.head default), s1)

/-- `back()` (const): throws `out_of_range` when empty; otherwise reads
the element just before `_pTail`, wrapping to the last slot when
`_pTail` is at the beginning. -/
def back {T : Type} [Inhabited T] (s : RingBuffer) (h : Heap T) :
    Except RBErr T :=
  if s.isEmpty = true then Except.error RBErr.bufferEmpty
  else if s.tail = 0 then Except.ok ((heapGet h s.buf).getD (s.size - 1) default)
  else Except.ok ((heapGet h s.buf).getD (s.tail - 1) default)

/-- `pop()`: throws `out_of_range` when empty; otherwise wraps `_pHead`
if needed, reads the value via `front()`, advances `_pHead`, and raises
the empty flag when the head catches up with the tail. -/
def pop {T : Type} [Inhabited T] (s : RingBuffer) (h : Heap T) :
    Except RBErr T × RingBuffer :=
  if s.isEmpty = true then (Except.error RBErr.bufferEmpty, s)
  else
    let s1 : RingBuffer := { s with head := if s.head = s.size then 0 else s.head }
    match s1.front h with
    | (Except.error e, s2) => (Except.error e, s2)
    | (Except.ok v, s2) =>
      let s3 : RingBuffer := { s2 with head := s2.head + 1 }
      if s3.head = s3.tail then (Except.ok v, { s3 with empty := true })
      else (Except.ok v, s3)

/-- The copy constructor: fresh allocation, element-by-element copy of
the `_size` slots, head and tail placed at the same offsets, empty flag
copied. -/
def copyCtor {T : Type} [Inhabited T] (other : RingBuffer) (h : Heap T) :
    RingBuffer × Heap T :=
  ({ size := other.size, buf := h.length, head := other.head,
     tail := other.tail, empty := other.empty },
   h ++ [(List.range other.size).map (fun i => (heapGet h other.buf).getD i default)])

/-- `swap(lhv, rhv)`: exchanges all five members, i.e. exchanges the
two object states wholesale. Returns (new lhv, new rhv). -/
def swapRB (lhv rhv : RingBuffer) : RingBuffer × RingBuffer := (rhv, lhv)

/-- `operator=`: the `this == &rhv` pointer-identity test is modelled by
the flag `sameObject`; otherwise copy-and-swap: build a temporary deep
copy of `rhv`, swap it with `*this`, and let the temporary die. Returns
the new state of the assigned-to object and the heap. -/
def assign {T : Type} [Inhabited T] (lhs rhs : RingBuffer) (h : Heap T)
    (sameObject : Bool) : RingBuffer × Heap T :=
  if sameObject = true then (lhs, h)
  else
    let p := copyCtor rhs h
    ((swapRB p.1 lhs).2, p.2)

end RingBuffer

/-! ## Invariant layer: well-formedness and the queue abstraction -/

/-- The slot index holding the `i`-th live element when the (wrapped)
head offset is `hw`: `hw + i`, reduced once modulo `n`. For
`hw < n` and `i ≤ n` this equals `(hw + i) % n`. -/
def bufIdx (hw i n : Nat) : Nat :=
  if hw + i < n then hw + i else hw + i - n

/-- The head offset after the lazy wrap performed at the start of
`front`/`pop` (`_pHead == _buf + _size ? _buf : _pHead`). -/
def hwOf (s : RingBuffer) : Nat := if s.head = s.size then 0 else s.head

/-- The tail offset after the lazy wrap performed at the start of
`push`. -/
def twOf (s : RingBuffer) : Nat := if s.tail = s.size then 0 else s.tail

/-- Well-formedness of a buffer state with respect to a heap. These
facts hold in every reachable state. -/
structure Wf {T : Type} (s : RingBuffer) (h : Heap T) : Prop where
  size_pos : 0 < s.size
  buf_lt : s.buf < h.length
  buf_len : (heapGet h s.buf).length = s.size
  head_le : s.head ≤ s.size
  tail_le : s.tail ≤ s.size
  empty_imp : s.empty = true → s.head = s.tail
  tail_zero : s.tail = 0 → s.head = 0 ∧ s.empty = true

/-- The abstraction relation: the buffer state together with the heap
represents the FIFO queue `q` (oldest element first). -/
def absRel {T : Type} [Inhabited T] (q : List T) (s : RingBuffer) (h : Heap T) : Prop :=
  Wf s h ∧ q.length = s.getCount ∧
    ∀ i, i < q.length →
      q.getD i default = (heapGet h s.buf).getD (bufIdx (hwOf s) i s.size) default

/-! ## Multi-step operations, reachability, and traces -/

/-- Push a list of values left to right, stopping at the first
failure. -/
def pushAll {T : Type} [Inhabited T] (s : RingBuffer) (h : Heap T) :
    List T → Except RBErr Unit × RingBuffer × Heap T
  | [] => (Except.ok (), s, h)
  | v :: vs =>
    match s.push h v with
    | (Except.ok _, s', h') => pushAll s' h' vs
    | (Except.error e, s', h') => (Except.error e, s', h')

/-- Pop `n` values, collecting them in order, stopping at the first
failure. -/
def popN {T : Type} [Inhabited T] (s : RingBuffer) (h : Heap T) :
    Nat → Except RBErr (List T) × RingBuffer
  | 0 => (Except.ok [], s)
  | n + 1 =>
    match s.pop h with
    | (Except.ok v, s') =>
      match popN s' h n with
      | (Except.ok vs, s'') => (Except.ok (v :: vs), s'')
      | (Except.error e, s'') => (Except.error e, s'')
    | (Except.error e, s') => (Except.error e, s')

/-- Reachable configurations of one buffer, indexed by the abstract
FIFO queue it holds: fresh construction, successful push/pop/front,
being created as a copy, and heap growth that leaves the buffer's own
allocation alone (activity of other buffers). -/
inductive ReachQ {T : Type} [Inhabited T] : List T → RingBuffer → Heap T → Prop where
  | created : ∀ (sz : Nat) (d : T) (h : Heap T) (s : RingBuffer) (h' : Heap T),
      RingBuffer.create sz d h = (Except.ok s, h') → ReachQ [] s h'
  | pushed : ∀ (q : List T) (s : RingBuffer) (h : Heap T) (v : T)
      (s' : RingBuffer) (h' : Heap T), ReachQ q s h →
      s.push h v = (Except.ok (), s', h') → ReachQ (q ++ [v]) s' h'
  | popped : ∀ (q : List T) (s : RingBuffer) (h : Heap T) (v : T)
      (s' : RingBuffer), ReachQ q s h →
      s.pop h = (Except.ok v, s') → ReachQ q.tail s' h
  | fronted : ∀ (q : List T) (s : RingBuffer) (h : Heap T) (v : T)
      (s' : RingBuffer), ReachQ q s h →
      s.front h = (Except.ok v, s') → ReachQ q s' h
  | copied : ∀ (q : List T) (s : RingBuffer) (h : Heap T)
      (s' : RingBuffer) (h' : Heap T), ReachQ q s h →
      RingBuffer.copyCtor s h = (s', h') → ReachQ q s' h'
  | framed : ∀ (q : List T) (s : RingBuffer) (h h' : Heap T), ReachQ q s h →
      heapGet h' s.buf = heapGet h s.buf → h.length ≤ h'.length → ReachQ q s h'

/-- A client operation on one buffer. -/
inductive Op (T : Type) where
  | pushOp : T → Op T
  | popOp : Op T

/-- A running configuration: the buffer, the heap, and ghost logs of
the successfully pushed and successfully popped values. -/
structure RunSt (T : Type) where
  st : RingBuffer
  hp : Heap T
  pushedLog : List T
  poppedLog : List T

/-- Execute one operation, extending the ghost logs on success; a
failed operation (the C++ method throwing) leaves the logs alone. -/
def stepOp {T : Type} [Inhabited T] (r : RunSt T) : Op T → RunSt T
  | Op.pushOp v =>
    match r.st.push r.hp v with
    | (Except.ok _, s', h') => ⟨s', h', r.pushedLog ++ [v], r.poppedLog⟩
    | (Except.error _, s', h') => ⟨s', h', r.pushedLog, r.poppedLog⟩
  | Op.popOp =>
    match r.st.pop r.hp with
    | (Except.ok v, s') => ⟨s', r.hp, r.pushedLog, r.poppedLog ++ [v]⟩
    | (Except.error _, s') => ⟨s', r.hp, r.pushedLog, r.poppedLog⟩

/-- Execute a list of operations left to right. -/
def runOps {T : Type} [Inhabited T] (r : RunSt T) : List (Op T) → RunSt T
  | [] => r
  | op :: ops => runOps (stepOp r op) ops

section HeapLemmas

variable {T : Type}

theorem heapGet_heapWrite_self (h : Heap T) (i j : Nat) (v : T)
    (hi : i < h.length) :
    heapGet (heapWrite h i j v) i = (heapGet h i).set j v := by
  simp [heapGet, heapWrite, List.getD]
  rw [List.getElem?_set_self]
  · simp [List.getElem?_eq_getElem hi]
  · exact hi

theorem heapGet_heapWrite_ne (h : Heap T) (i j : Nat) (v : T) (k : Nat)
    (hk : k ≠ i) :
    heapGet (heapWrite h i j v) k = heapGet h k := by
  simp [heapGet, heapWrite, List.getD]
  rw [List.getElem?_set_ne]
  omega

theorem length_heapWrite (h : Heap T) (i j : Nat) (v : T) :
    (heapWrite h i j v).length = h.length := by
  simp [heapWrite]

theorem heapGet_append_lt (h : Heap T) (l : List T) (i : Nat)
    (hi : i < h.length) :
    heapGet (h ++ [l]) i = heapGet h i := by
  simp [heapGet, List.getD, List.getElem?_append_left hi]

theorem heapGet_append_self (h : Heap T) (l : List T) :
    heapGet (h ++ [l]) h.length = l := by
  simp [heapGet, List.getD]

theorem getD_set (l : List T) (j i : Nat) (v d : T) :
    (l.set j v).getD i d = if j = i ∧ j < l.length then v else l.getD i d := by
  by_cases hji : j = i
  · subst hji
    by_cases hl : j < l.length
    · simp [List.getD, List.getElem?_set_self hl, List.getElem?_eq_getElem hl, hl]
    · rw [List.set_eq_of_length_le (by omega)]
      simp [hl]
  · simp only [List.getD, List.get?_eq_getElem?]
    rw [List.getElem?_set_ne hji]
    simp [hji]

end HeapLemmas

section IndexLemmas

theorem bufIdx_lt (hw i n : Nat) (h1 : hw < n) (h2 : i ≤ n) :
    bufIdx hw i n < n := by
  unfold bufIdx; split <;> omega

theorem bufIdx_inj (hw i j n : Nat) (h1 : hw < n) (h2 : i < n) (h3 : j < n)
    (heq : bufIdx hw i n = bufIdx hw j n) : i = j := by
  unfold bufIdx at heq; split at heq <;> split at heq <;> omega

theorem bufIdx_zero (hw n : Nat) (h1 : hw < n) : bufIdx hw 0 n = hw := by
  unfold bufIdx; split <;> omega

theorem hwOf_lt (s : RingBuffer) (h1 : 0 < s.size) (h2 : s.head ≤ s.size) :
    hwOf s < s.size := by
  unfold hwOf; split <;> omega

theorem twOf_lt (s : RingBuffer) (h1 : 0 < s.size) (h2 : s.tail ≤ s.size) :
    twOf s < s.size := by
  unfold twOf; split <;> omega

end IndexLemmas

section CountLemmas

variable {T : Type}

theorem count_le_size (s : RingBuffer) (h : Heap T) (hw : Wf s h) :
    s.getCount ≤ s.size := by
  have h1 := hw.size_pos
  have h2 := hw.head_le
  have h3 := hw.tail_le
  cases hemp : s.empty <;>
    simp only [RingBuffer.getCount, RingBuffer.isEmpty, RingBuffer.getSize, hemp] <;>
    split_ifs <;> omega

theorem count_zero_iff (s : RingBuffer) (h : Heap T) (hw : Wf s h) :
    s.getCount = 0 ↔ s.empty = true := by
  have h1 := hw.size_pos
  have h2 := hw.head_le
  have h3 := hw.tail_le
  cases hemp : s.empty
  · have h5 : s.tail ≠ 0 := by
      intro ht
      have := (hw.tail_zero ht).2
      rw [hemp] at this
      exact Bool.false_ne_true this
    simp [RingBuffer.getCount, RingBuffer.isEmpty, RingBuffer.getSize, hemp]
    split_ifs <;> omega
  · have h4 := hw.empty_imp hemp
    simp [RingBuffer.getCount, RingBuffer.isEmpty, RingBuffer.getSize, hemp, h4]

/-- The (lazily wrapped) tail offset sits exactly `getCount` slots past
the (lazily wrapped) head offset, modulo the capacity. -/
theorem twOf_eq (s : RingBuffer) (h : Heap T) (hw : Wf s h) :
    twOf s = bufIdx (hwOf s) s.getCount s.size := by
  have h1 := hw.size_pos
  have h2 := hw.head_le
  have h3 := hw.tail_le
  cases hemp : s.empty
  · have h5 : s.tail ≠ 0 := by
      intro ht
      have := (hw.tail_zero ht).2
      rw [hemp] at this
      exact Bool.false_ne_true this
    simp [twOf, bufIdx, hwOf, RingBuffer.getCount, RingBuffer.isEmpty,
      RingBuffer.getSize, hemp]
    split_ifs <;> omega
  · have h4 := hw.empty_imp hemp
    simp [twOf, bufIdx, hwOf, RingBuffer.getCount, RingBuffer.isEmpty,
      RingBuffer.getSize, hemp, h4]
    split_ifs <;> omega

end CountLemmas

section PushLemmas

variable {T : Type} [Inhabited T]

theorem push_empty_val (s : RingBuffer) :
    (if s.isEmpty = true then false else s.empty) = false := by
  cases hemp : s.empty <;> simp [RingBuffer.isEmpty, hemp]

theorem getCount_push {T : Type} (s : RingBuffer) (h : Heap T) (hw : Wf s h)
    (hlt : s.getCount < s.size) :
    RingBuffer.getCount { s with tail := twOf s + 1, empty := false } =
      s.getCount + 1 := by
  have h1 := hw.size_pos
  have h2 := hw.head_le
  have h3 := hw.tail_le
  cases hemp : s.empty
  · have h5 : s.tail ≠ 0 := by
      intro ht
      have := (hw.tail_zero ht).2
      rw [hemp] at this
      exact Bool.false_ne_true this
    simp [RingBuffer.getCount, RingBuffer.isEmpty, RingBuffer.getSize, twOf,
      hemp] at hlt ⊢
    split_ifs at hlt ⊢ <;> omega
  · have h4 := hw.empty_imp hemp
    simp [RingBuffer.getCount, RingBuffer.isEmpty, RingBuffer.getSize, twOf,
      hemp, h4] at hlt ⊢
    split_ifs at hlt ⊢ <;> omega

theorem isFull_false_of (s : RingBuffer) (hlt : s.getCount < s.size) :
    s.isFull = false := by
  simp [RingBuffer.isFull, RingBuffer.getSize]
  omega

/-- A push on a non-full buffer succeeds, appends the value to the
abstract queue, and touches only the buffer's own allocation. -/
theorem push_ok (q : List T) (s : RingBuffer) (h : Heap T) (v : T)
    (hab : absRel q s h) (hlt : q.length < s.size) :
    s.push h v =
      (Except.ok (), { s with tail := twOf s + 1, empty := false },
        heapWrite h s.buf (twOf s) v) ∧
    absRel (q ++ [v]) { s with tail := twOf s + 1, empty := false }
      (heapWrite h s.buf (twOf s) v) := by
  obtain ⟨hw, hlen, hcont⟩ := hab
  have hcnt : s.getCount = q.length := hlen.symm
  have hfull : s.isFull = false := isFull_false_of s (by omega)
  have hbl := hw.buf_len
  have hgp : heapGet (heapWrite h s.buf (twOf s) v) s.buf =
      (heapGet h s.buf).set (twOf s) v :=
    heapGet_heapWrite_self h s.buf (twOf s) v hw.buf_lt
  have htwlt : twOf s < s.size := twOf_lt s hw.size_pos hw.tail_le
  have hhwlt : hwOf s < s.size := hwOf_lt s hw.size_pos hw.head_le
  refine ⟨?_, ?_, ?_, ?_⟩
  · simp only [RingBuffer.push, hfull, Bool.false_eq_true, if_false, twOf,
      push_empty_val]
  · constructor
    · exact hw.size_pos
    · rw [length_heapWrite]
      exact hw.buf_lt
    · show (heapGet (heapWrite h s.buf (twOf s) v) s.buf).length = s.size
      rw [hgp, List.length_set]
      exact hbl
    · exact hw.head_le
    · show twOf s + 1 ≤ s.size
      omega
    · intro hfalse
      exact absurd hfalse (by simp)
    · intro ht0
      exact absurd ht0 (by simp)
  · show (q ++ [v]).length =
      RingBuffer.getCount { s with tail := twOf s + 1, empty := false }
    rw [getCount_push s h hw (by omega)]
    simp [hcnt]
  · intro i hi
    simp only [List.length_append, List.length_singleton] at hi
    have hhw' : hwOf { s with tail := twOf s + 1, empty := false } = hwOf s := by
      simp [hwOf]
    show (q ++ [v]).getD i default =
      (heapGet (heapWrite h s.buf (twOf s) v)
        (RingBuffer.buf { s with tail := twOf s + 1, empty := false })).getD
        (bufIdx (hwOf { s with tail := twOf s + 1, empty := false }) i
          (RingBuffer.size { s with tail := twOf s + 1, empty := false })) default
    rw [hhw']
    show (q ++ [v]).getD i default =
      (heapGet (heapWrite h s.buf (twOf s) v) s.buf).getD
        (bufIdx (hwOf s) i s.size) default
    rw [hgp, getD_set]
    rcases Nat.lt_or_ge i q.length with hi' | hi'
    · rw [if_neg]
      · rw [List.getD_append _ _ _ _ hi']
        exact hcont i hi'
      · rintro ⟨he, -⟩
        have := bufIdx_inj (hwOf s) s.getCount i s.size hhwlt
          (by omega) (by omega) ((twOf_eq s h hw).symm.trans he)
        omega
    · have hieq : i = q.length := by omega
      subst hieq
      rw [if_pos]
      · simp [List.getD]
      · constructor
        · rw [twOf_eq s h hw, hcnt]
        · rw [hbl]
          exact htwlt

/-- A push on a full buffer fails with `bufferFull` and changes
nothing. -/
theorem push_fail (q : List T) (s : RingBuffer) (h : Heap T) (v : T)
    (hab : absRel q s h) (hfull : q.length = s.size) :
    s.push h v = (Except.error RBErr.bufferFull, s, h) := by
  obtain ⟨hw, hlen, -⟩ := hab
  have hf : s.isFull = true := by
    simp [RingBuffer.isFull, RingBuffer.getSize]
    omega
  simp [RingBuffer.push, hf]

end PushLemmas

section PopLemmas

variable {T : Type} [Inhabited T]

theorem empty_false_of_cons (q : List T) (v : T) (s : RingBuffer) (h : Heap T)
    (hab : absRel (v :: q) s h) : s.empty = false := by
  obtain ⟨hw, hlen, -⟩ := hab
  have := count_zero_iff s h hw
  cases hemp : s.empty
  · rfl
  · have hc : s.getCount = 0 := this.mpr hemp
    rw [← hlen] at hc
    simp at hc

theorem getCount_wrapHead {T : Type} (s : RingBuffer) (h : Heap T) (hw : Wf s h)
    (hemp : s.empty = false) :
    RingBuffer.getCount { s with head := hwOf s } = s.getCount := by
  have h1 := hw.size_pos
  have h2 := hw.head_le
  have h3 := hw.tail_le
  have h5 : s.tail ≠ 0 := by
    intro ht
    have := (hw.tail_zero ht).2
    rw [hemp] at this
    exact Bool.false_ne_true this
  simp [RingBuffer.getCount, RingBuffer.isEmpty, RingBuffer.getSize, hwOf, hemp]
  split_ifs <;> omega

/-- A `front` on a non-empty buffer returns the oldest element and only
performs the lazy head wrap. -/
theorem front_ok (q : List T) (v : T) (s : RingBuffer) (h : Heap T)
    (hab : absRel (v :: q) s h) :
    s.front h = (Except.ok v, { s with head := hwOf s }) ∧
    absRel (v :: q) { s with head := hwOf s } h := by
  have hemp := empty_false_of_cons q v s h hab
  obtain ⟨hw, hlen, hcont⟩ := hab
  have h1 := hw.size_pos
  have hhwlt : hwOf s < s.size := hwOf_lt s hw.size_pos hw.head_le
  have hv : (heapGet h s.buf).getD (hwOf s) default = v := by
    have h0 := hcont 0 (by simp)
    rw [bufIdx_zero (hwOf s) s.size hhwlt] at h0
    exact h0.symm
  have hfr : s.front h = (Except.ok v, { s with head := hwOf s }) := by
    simp only [RingBuffer.front, RingBuffer.isEmpty, hemp, Bool.false_eq_true,
      if_false]
    rw [show (if s.head = s.size then 0 else s.head) = hwOf s from rfl, hv]
  refine ⟨hfr, ?_, ?_, ?_⟩
  · constructor
    · exact hw.size_pos
    · exact hw.buf_lt
    · exact hw.buf_len
    · show hwOf s ≤ s.size
      omega
    · exact hw.tail_le
    · intro habs
      show hwOf s = s.tail
      rw [show RingBuffer.empty { s with head := hwOf s } = s.empty from rfl,
        hemp] at habs
      exact absurd habs (by simp)
    · intro ht0
      have := (hw.tail_zero ht0).2
      rw [hemp] at this
      exact absurd this (by simp)
  · show (v :: q).length = RingBuffer.getCount { s with head := hwOf s }
    rw [getCount_wrapHead s h hw hemp]
    exact hlen
  · intro i hi
    have hw2 : hwOf { s with head := hwOf s } = hwOf s := by
      dsimp only [hwOf]
      split_ifs <;> omega
    rw [hw2]
    exact hcont i hi

theorem bufIdx_succ (hw i n : Nat) (h1 : hw < n) (hi : i < n) :
    bufIdx (if hw + 1 = n then 0 else hw + 1) i n = bufIdx hw (i + 1) n := by
  unfold bufIdx
  split_ifs <;> omega

theorem getCount_pop_toEmpty {T : Type} (s : RingBuffer) (h : Heap T)
    (hw : Wf s h) (hemp : s.empty = false) (hcond : hwOf s + 1 = s.tail) :
    s.getCount = 1 := by
  have h1 := hw.size_pos
  have h2 := hw.head_le
  have h3 := hw.tail_le
  have h5 : s.tail ≠ 0 := by
    intro ht
    have := (hw.tail_zero ht).2
    rw [hemp] at this
    exact Bool.false_ne_true this
  simp [RingBuffer.getCount, RingBuffer.isEmpty, RingBuffer.getSize, hemp]
  simp [hwOf] at hcond
  split_ifs at hcond ⊢ <;> omega

theorem getCount_pop_step {T : Type} (s : RingBuffer) (h : Heap T)
    (hw : Wf s h) (hemp : s.empty = false) (hcond : hwOf s + 1 ≠ s.tail) :
    RingBuffer.getCount { s with head := hwOf s + 1, empty := false } =
      s.getCount - 1 := by
  have h1 := hw.size_pos
  have h2 := hw.head_le
  have h3 := hw.tail_le
  have h5 : s.tail ≠ 0 := by
    intro ht
    have := (hw.tail_zero ht).2
    rw [hemp] at this
    exact Bool.false_ne_true this
  simp [RingBuffer.getCount, RingBuffer.isEmpty, RingBuffer.getSize, hemp]
  simp [hwOf] at hcond ⊢
  split_ifs at hcond ⊢ <;> omega

/-- A `pop` on a non-empty buffer returns the oldest element, removes
it from the abstract queue, advances the head, and leaves the heap and
the tail untouched. -/
theorem pop_ok (q : List T) (v : T) (s : RingBuffer) (h : Heap T)
    (hab : absRel (v :: q) s h) :
    ∃ s', s.pop h = (Except.ok v, s') ∧ absRel q s' h ∧
      s'.size = s.size ∧ s'.buf = s.buf ∧ s'.tail = s.tail ∧
      s'.head = hwOf s + 1 := by
  have hemp := empty_false_of_cons q v s h hab
  obtain ⟨hw, hlen, hcont⟩ := hab
  have h1 := hw.size_pos
  have h2 := hw.head_le
  have h3 := hw.tail_le
  have hhwlt : hwOf s < s.size := hwOf_lt s hw.size_pos hw.head_le
  have hqlen : q.length + 1 = s.getCount := by
    simpa using hlen
  have hcle := count_le_size s h hw
  have hv : (heapGet h s.buf).getD (hwOf s) default = v := by
    have h0 := hcont 0 (by simp)
    rw [bufIdx_zero (hwOf s) s.size hhwlt] at h0
    exact h0.symm
  have hfrA : RingBuffer.front
      (⟨s.size, s.buf, hwOf s, s.tail, false⟩ : RingBuffer) h =
      (Except.ok v, ⟨s.size, s.buf, hwOf s, s.tail, false⟩) := by
    simp only [RingBuffer.front, RingBuffer.isEmpty, Bool.false_eq_true,
      if_false]
    rw [if_neg (Nat.ne_of_lt hhwlt), hv]
  have hpop1 : s.pop h =
      (if hwOf s + 1 = s.tail then
        (Except.ok v, (⟨s.size, s.buf, hwOf s + 1, s.tail, true⟩ : RingBuffer))
      else
        (Except.ok v, (⟨s.size, s.buf, hwOf s + 1, s.tail, false⟩ : RingBuffer))) := by
    simp only [RingBuffer.pop, RingBuffer.isEmpty, hemp, Bool.false_eq_true,
      if_false]
    rw [show (if s.head = s.size then 0 else s.head) = hwOf s from rfl, hfrA]
  by_cases hcond : hwOf s + 1 = s.tail
  · refine ⟨⟨s.size, s.buf, hwOf s + 1, s.tail, true⟩, ?_, ?_, rfl, rfl, rfl, rfl⟩
    · rw [hpop1, if_pos hcond]
    · have hone : s.getCount = 1 := getCount_pop_toEmpty s h hw hemp hcond
      have hq0 : q = [] := by
        have : q.length = 0 := by omega
        exact List.length_eq_zero.mp this
      subst hq0
      refine ⟨?_, ?_, ?_⟩
      · refine ⟨h1, hw.buf_lt, hw.buf_len, ?_, h3, fun _ => hcond, ?_⟩
        · show hwOf s + 1 ≤ s.size
          omega
        · intro ht0
          have := (hw.tail_zero ht0).2
          rw [hemp] at this
          exact absurd this (by simp)
      · show ([] : List T).length =
          RingBuffer.getCount ⟨s.size, s.buf, hwOf s + 1, s.tail, true⟩
        have hc0 : RingBuffer.getCount
            ⟨s.size, s.buf, hwOf s + 1, s.tail, true⟩ = 0 := by
          dsimp only [RingBuffer.getCount, RingBuffer.isEmpty]
          rw [if_pos ⟨hcond.symm, rfl⟩]
        rw [hc0]
        rfl
      · intro i hi
        simp at hi
  · refine ⟨⟨s.size, s.buf, hwOf s + 1, s.tail, false⟩, ?_, ?_, rfl, rfl, rfl, rfl⟩
    · rw [hpop1, if_neg hcond]
    · have hstep : RingBuffer.getCount
          (⟨s.size, s.buf, hwOf s + 1, s.tail, false⟩ : RingBuffer) =
          s.getCount - 1 := by
        have := getCount_pop_step s h hw hemp hcond
        simpa [hemp] using this
      refine ⟨?_, ?_, ?_⟩
      · refine ⟨h1, hw.buf_lt, hw.buf_len, ?_, h3, ?_, ?_⟩
        · show hwOf s + 1 ≤ s.size
          omega
        · intro habs
          exact absurd habs (by simp)
        · intro ht0
          have := (hw.tail_zero ht0).2
          rw [hemp] at this
          exact absurd this (by simp)
      · show q.length =
          RingBuffer.getCount ⟨s.size, s.buf, hwOf s + 1, s.tail, false⟩
        rw [hstep]
        omega
      · intro i hi
        have hisz : i < s.size := by omega
        have hstep2 : hwOf (⟨s.size, s.buf, hwOf s + 1, s.tail, false⟩ : RingBuffer) =
            (if hwOf s + 1 = s.size then 0 else hwOf s + 1) := by
          dsimp only [hwOf]
        show q.getD i default =
          (heapGet h s.buf).getD
            (bufIdx (hwOf (⟨s.size, s.buf, hwOf s + 1, s.tail, false⟩ : RingBuffer))
              i s.size) default
        rw [hstep2, bufIdx_succ (hwOf s) i s.size hhwlt hisz]
        have := hcont (i + 1) (by simpa using hi)
        simpa using this

end PopLemmas

section BackAndFailLemmas

variable {T : Type} [Inhabited T]

/-- A `back` on a non-empty buffer returns the newest element without
mutating anything (it is `const`). -/
theorem back_ok (q : List T) (v : T) (s : RingBuffer) (h : Heap T)
    (hab : absRel (v :: q) s h) :
    s.back h = Except.ok ((v :: q).getD q.length default) := by
  have hemp := empty_false_of_cons q v s h hab
  obtain ⟨hw, hlen, hcont⟩ := hab
  have h1 := hw.size_pos
  have h2 := hw.head_le
  have h3 := hw.tail_le
  have hcle := count_le_size s h hw
  have ht0 : s.tail ≠ 0 := by
    intro ht
    have := (hw.tail_zero ht).2
    rw [hemp] at this
    exact Bool.false_ne_true this
  have hc : s.getCount = q.length + 1 := by
    simpa using hlen.symm
  have hidx : s.tail - 1 = bufIdx (hwOf s) q.length s.size := by
    have htw := twOf_eq s h hw
    rw [hc] at htw
    unfold twOf at htw
    unfold bufIdx hwOf at htw ⊢
    split_ifs at htw ⊢ <;> omega
  have hlast := hcont q.length (by simp)
  rw [← hidx] at hlast
  simp only [RingBuffer.back, RingBuffer.isEmpty, hemp, Bool.false_eq_true,
    if_false]
  rw [if_neg ht0, ← hlast]

theorem empty_true_of_nil (s : RingBuffer) (h : Heap T)
    (hab : absRel ([] : List T) s h) : s.empty = true := by
  obtain ⟨hw, hlen, -⟩ := hab
  exact (count_zero_iff s h hw).mp hlen.symm

theorem pop_fail (s : RingBuffer) (h : Heap T) (hemp : s.empty = true) :
    s.pop h = ((Except.error RBErr.bufferEmpty : Except RBErr T), s) := by
  simp [RingBuffer.pop, RingBuffer.isEmpty, hemp]

theorem front_fail (s : RingBuffer) (h : Heap T) (hemp : s.empty = true) :
    s.front h = ((Except.error RBErr.bufferEmpty : Except RBErr T), s) := by
  simp [RingBuffer.front, RingBuffer.isEmpty, hemp]

theorem back_fail (s : RingBuffer) (h : Heap T) (hemp : s.empty = true) :
    s.back h = (Except.error RBErr.bufferEmpty : Except RBErr T) := by
  simp [RingBuffer.back, RingBuffer.isEmpty, hemp]

end BackAndFailLemmas

section CreateCopyLemmas

variable {T : Type} [Inhabited T]

/-- Constructing with a positive capacity succeeds and establishes the
abstraction relation for the empty queue. -/
theorem create_ok (sz : Nat) (d : T) (h : Heap T) (hsz : 0 < sz) :
    RingBuffer.create sz d h =
      (Except.ok (⟨sz, h.length, 0, 0, true⟩ : RingBuffer),
        h ++ [List.replicate sz d]) ∧
    absRel ([] : List T) ⟨sz, h.length, 0, 0, true⟩ (h ++ [List.replicate sz d]) := by
  constructor
  · rw [RingBuffer.create, if_neg (by omega)]
  · refine ⟨⟨hsz, by simp, ?_, Nat.zero_le sz, Nat.zero_le sz, fun _ => rfl,
      fun _ => ⟨rfl, rfl⟩⟩, ?_, ?_⟩
    · show (heapGet (h ++ [List.replicate sz d]) h.length).length = sz
      rw [heapGet_append_self]
      simp
    · show ([] : List T).length = RingBuffer.getCount ⟨sz, h.length, 0, 0, true⟩
      have : RingBuffer.getCount (⟨sz, h.length, 0, 0, true⟩ : RingBuffer) = 0 := by
        dsimp only [RingBuffer.getCount, RingBuffer.isEmpty]
        rw [if_pos ⟨rfl, rfl⟩]
      rw [this]
      rfl
    · intro i hi
      simp at hi

/-- The copy constructor allocates a fresh array holding the same
elements and copies the cursor offsets and the empty flag; the source
buffer's allocation and all other allocations are untouched. -/
theorem copy_ok (q : List T) (s : RingBuffer) (h : Heap T)
    (hab : absRel q s h) :
    RingBuffer.copyCtor s h =
      ((⟨s.size, h.length, s.head, s.tail, s.empty⟩ : RingBuffer),
        h ++ [heapGet h s.buf]) ∧
    absRel q ⟨s.size, h.length, s.head, s.tail, s.empty⟩ (h ++ [heapGet h s.buf]) := by
  obtain ⟨hw, hlen, hcont⟩ := hab
  have hmap : (List.range s.size).map
      (fun i => (heapGet h s.buf).getD i default) = heapGet h s.buf := by
    apply List.ext_getElem
    · simp [hw.buf_len]
    · intro i hi1 hi2
      have hisz : i < s.size := by
        simpa using hi1
      have hilen : i < (heapGet h s.buf).length := by
        rw [hw.buf_len]
        exact hisz
      simp [hisz, List.getD, List.getElem?_eq_getElem hilen]
  constructor
  · simp only [RingBuffer.copyCtor, hmap]
  · refine ⟨⟨hw.size_pos, by simp, ?_, hw.head_le, hw.tail_le,
      fun he => hw.empty_imp he, fun ht => hw.tail_zero ht⟩, ?_, ?_⟩
    · show (heapGet (h ++ [heapGet h s.buf]) h.length).length = s.size
      rw [heapGet_append_self]
      exact hw.buf_len
    · exact hlen
    · intro i hi
      show q.getD i default =
        (heapGet (h ++ [heapGet h s.buf]) h.length).getD
          (bufIdx (hwOf ⟨s.size, h.length, s.head, s.tail, s.empty⟩) i s.size) default
      rw [heapGet_append_self]
      exact hcont i hi

/-- The abstraction relation only looks at the buffer's own allocation,
so it survives any heap change that preserves that allocation and does
not shrink the heap. -/
theorem absRel_frame (q : List T) (s : RingBuffer) (h h' : Heap T)
    (hab : absRel q s h) (hg : heapGet h' s.buf = heapGet h s.buf)
    (hlen : h.length ≤ h'.length) : absRel q s h' := by
  obtain ⟨hw, hl, hcont⟩ := hab
  refine ⟨⟨hw.size_pos, by have := hw.buf_lt; omega, by rw [hg]; exact hw.buf_len,
    hw.head_le, hw.tail_le, hw.empty_imp, hw.tail_zero⟩, hl, ?_⟩
  intro i hi
  rw [hg]
  exact hcont i hi

end CreateCopyLemmas

/-! ## Multi-step operations and reachability -/







/-- Soundness of the abstraction: every reachable configuration
satisfies the abstraction relation (hence the well-formedness
invariant). -/
theorem reachQ_absRel {T : Type} [Inhabited T] (q : List T) (s : RingBuffer)
    (h : Heap T) (hr : ReachQ q s h) : absRel q s h := by
  induction hr with
  | created sz d h0 s0 h0' hc =>
    by_cases hsz : sz = 0
    · rw [RingBuffer.create, if_pos hsz] at hc
      cases hc
    · have hco := create_ok sz d h0 (by omega)
      rw [hco.1] at hc
      injection hc with hc1 hc2
      injection hc1 with hc1
      subst hc1
      subst hc2
      exact hco.2
  | pushed q0 s0 h0 v s0' h0' hr0 hp ih =>
    rcases Nat.lt_or_ge q0.length s0.size with hlt | hge
    · have hpo := push_ok q0 s0 h0 v ih hlt
      rw [hpo.1] at hp
      injection hp with hp1 hp2
      injection hp2 with hp2 hp3
      subst hp2
      subst hp3
      exact hpo.2
    · have hq : q0.length = s0.size := by
        have hcle := count_le_size s0 h0 ih.1
        have := ih.2.1
        omega
      rw [push_fail q0 s0 h0 v ih hq] at hp
      cases hp
  | popped q0 s0 h0 v s0' hr0 hp ih =>
    cases q0 with
    | nil =>
      rw [pop_fail s0 h0 (empty_true_of_nil s0 h0 ih)] at hp
      cases hp
    | cons w q1 =>
      obtain ⟨s'', heq, hab', -, -, -, -⟩ := pop_ok q1 w s0 h0 ih
      rw [heq] at hp
      injection hp with hp1 hp2
      subst hp2
      exact hab'
  | fronted q0 s0 h0 v s0' hr0 hf ih =>
    cases q0 with
    | nil =>
      rw [front_fail s0 h0 (empty_true_of_nil s0 h0 ih)] at hf
      cases hf
    | cons w q1 =>
      obtain ⟨heq, hab'⟩ := front_ok q1 w s0 h0 ih
      rw [heq] at hf
      injection hf with hf1 hf2
      subst hf2
      exact hab'
  | copied q0 s0 h0 s0' h0' hr0 hc ih =>
    have hco := copy_ok q0 s0 h0 ih
    rw [hco.1] at hc
    injection hc with hc1 hc2
    subst hc1
    subst hc2
    exact hco.2
  | framed q0 s0 h0 h0' hr0 hg hl ih =>
    exact absRel_frame q0 s0 h0 h0' ih hg hl

section MultiStep

variable {T : Type} [Inhabited T]

/-- Pushing `vs` into a buffer with enough free room succeeds and
appends `vs` to the abstract queue, touching no other allocation. -/
theorem pushAll_ok (vs : List T) (q : List T) (s : RingBuffer) (h : Heap T)
    (hab : absRel q s h) (hle : q.length + vs.length ≤ s.size) :
    ∃ s' h', pushAll s h vs = (Except.ok (), s', h') ∧ absRel (q ++ vs) s' h' ∧
      s'.size = s.size ∧ s'.buf = s.buf ∧ h'.length = h.length ∧
      (∀ j, j ≠ s.buf → heapGet h' j = heapGet h j) := by
  induction vs generalizing q s h with
  | nil =>
    exact ⟨s, h, rfl, by simpa using hab, rfl, rfl, rfl, fun _ _ => rfl⟩
  | cons v vs ih =>
    have hlt : q.length < s.size := by
      simp at hle
      omega
    have hpo := push_ok q s h v hab hlt
    obtain ⟨s2, h2, heq, hab2, hsz2, hbuf2, hlen2, hfr2⟩ :=
      ih (q ++ [v]) _ _ hpo.2 (by simp at hle ⊢; omega)
    refine ⟨s2, h2, ?_, by simpa using hab2, by simpa using hsz2,
      by simpa using hbuf2, by simpa [length_heapWrite] using hlen2, ?_⟩
    · rw [pushAll, hpo.1]
      exact heq
    · intro j hj
      have hbq : RingBuffer.buf { s with tail := twOf s + 1, empty := false } =
          s.buf := rfl
      rw [hfr2 j (by rw [hbq]; exact hj),
        heapGet_heapWrite_ne h s.buf (twOf s) v j hj]

/-- Popping `n ≤ |q|` values returns exactly the first `n` elements of
the abstract queue, in order, and never touches the heap. -/
theorem popN_ok (n : Nat) (q : List T) (s : RingBuffer) (h : Heap T)
    (hab : absRel q s h) (hn : n ≤ q.length) :
    ∃ s', popN s h n = (Except.ok (q.take n), s') ∧ absRel (q.drop n) s' h ∧
      s'.size = s.size ∧ s'.buf = s.buf ∧ s'.tail = s.tail := by
  induction n generalizing q s with
  | zero =>
    exact ⟨s, rfl, by simpa using hab, rfl, rfl, rfl⟩
  | succ n ih =>
    cases q with
    | nil => simp at hn
    | cons v q1 =>
      obtain ⟨s1, heq1, hab1, hsz1, hbuf1, htl1, -⟩ := pop_ok q1 v s h hab
      obtain ⟨s2, heq2, hab2, hsz2, hbuf2, htl2⟩ :=
        ih q1 s1 hab1 (by simpa using hn)
      refine ⟨s2, ?_, by simpa using hab2, by rw [hsz2, hsz1],
        by rw [hbuf2, hbuf1], by rw [htl2, htl1]⟩
      simp [popN, heq1, heq2]

end MultiStep

/-! ## Operation sequences and trace logs -/









section FieldLemmas

variable {T : Type} [Inhabited T]

theorem push_fields (s : RingBuffer) (h : Heap T) (v : T) :
    (s.push h v).2.1.size = s.size ∧ (s.push h v).2.1.buf = s.buf := by
  unfold RingBuffer.push
  split_ifs <;> exact ⟨rfl, rfl⟩

theorem push_heap_frame (s : RingBuffer) (h : Heap T) (v : T) :
    (∀ j, j ≠ s.buf → heapGet (s.push h v).2.2 j = heapGet h j) ∧
    ((s.push h v).2.2).length = h.length := by
  unfold RingBuffer.push
  split_ifs
  all_goals first
    | exact ⟨fun _ _ => rfl, rfl⟩
    | exact ⟨fun j hj => heapGet_heapWrite_ne h s.buf _ v j hj,
        length_heapWrite h s.buf _ v⟩

theorem pop_fields (s : RingBuffer) (h : Heap T) :
    (s.pop h).2.size = s.size ∧ (s.pop h).2.buf = s.buf := by
  unfold RingBuffer.pop RingBuffer.front
  dsimp only [RingBuffer.isEmpty]
  split_ifs <;> (try exact ⟨rfl, rfl⟩) <;> dsimp only [] <;> split_ifs <;>
    exact ⟨rfl, rfl⟩

theorem front_heap_congr (s : RingBuffer) (h h' : Heap T)
    (hg : heapGet h' s.buf = heapGet h s.buf) : s.front h' = s.front h := by
  unfold RingBuffer.front
  rw [hg]

theorem back_heap_congr (s : RingBuffer) (h h' : Heap T)
    (hg : heapGet h' s.buf = heapGet h s.buf) : s.back h' = s.back h := by
  unfold RingBuffer.back
  rw [hg]

theorem stepOp_fields (r : RunSt T) (op : Op T) :
    (stepOp r op).st.buf = r.st.buf ∧ (stepOp r op).st.size = r.st.size ∧
    (∀ j, j ≠ r.st.buf → heapGet (stepOp r op).hp j = heapGet r.hp j) ∧
    (stepOp r op).hp.length = r.hp.length := by
  cases op with
  | pushOp v =>
    have hpf := push_fields r.st r.hp v
    have hhf := push_heap_frame r.st r.hp v
    unfold stepOp
    dsimp only []
    rcases hpv : r.st.push r.hp v with ⟨e, s', h'⟩
    rw [hpv] at hpf hhf
    cases e <;> (dsimp only []; exact ⟨hpf.2, hpf.1, hhf.1, hhf.2⟩)
  | popOp =>
    have hpf := pop_fields r.st r.hp
    unfold stepOp
    dsimp only []
    rcases hpv : r.st.pop r.hp with ⟨e, s'⟩
    rw [hpv] at hpf
    cases e <;> (dsimp only []; exact ⟨hpf.2, hpf.1, fun _ _ => rfl, rfl⟩)

/-- Running any operation sequence on a buffer touches only that
buffer's allocation and preserves its capacity and allocation id. -/
theorem runOps_frame (ops : List (Op T)) (r : RunSt T) :
    (runOps r ops).st.buf = r.st.buf ∧ (runOps r ops).st.size = r.st.size ∧
    (∀ j, j ≠ r.st.buf → heapGet (runOps r ops).hp j = heapGet r.hp j) ∧
    (runOps r ops).hp.length = r.hp.length := by
  induction ops generalizing r with
  | nil => exact ⟨rfl, rfl, fun _ _ => rfl, rfl⟩
  | cons op ops ih =>
    obtain ⟨hb, hs, hg, hl⟩ := stepOp_fields r op
    obtain ⟨ihb, ihs, ihg, ihl⟩ := ih (stepOp r op)
    simp only [runOps]
    refine ⟨ihb.trans hb, ihs.trans hs, ?_, ihl.trans hl⟩
    intro j hj
    rw [ihg j (by rw [hb]; exact hj), hg j hj]

end FieldLemmas

section TraceInvariant

variable {T : Type} [Inhabited T]

/-- One step preserves the trace invariant: the pushed log always
equals the popped log followed by the current abstract queue. -/
theorem stepOp_inv (r : RunSt T) (op : Op T)
    (hinv : ∃ q, absRel q r.st r.hp ∧ r.pushedLog = r.poppedLog ++ q) :
    ∃ q, absRel q (stepOp r op).st (stepOp r op).hp ∧
      (stepOp r op).pushedLog = (stepOp r op).poppedLog ++ q := by
  obtain ⟨q, hab, hlog⟩ := hinv
  cases op with
  | pushOp v =>
    rcases Nat.lt_or_ge q.length r.st.size with hlt | hge
    · have hpo := push_ok q r.st r.hp v hab hlt
      unfold stepOp
      dsimp only []
      rw [hpo.1]
      exact ⟨q ++ [v], hpo.2, by rw [hlog, List.append_assoc]⟩
    · have hq : q.length = r.st.size := by
        have hcle := count_le_size r.st r.hp hab.1
        have := hab.2.1
        omega
      unfold stepOp
      dsimp only []
      rw [push_fail q r.st r.hp v hab hq]
      exact ⟨q, hab, hlog⟩
  | popOp =>
    cases q with
    | nil =>
      unfold stepOp
      dsimp only []
      rw [pop_fail r.st r.hp (empty_true_of_nil r.st r.hp hab)]
      exact ⟨[], hab, hlog⟩
    | cons v q1 =>
      obtain ⟨s', heq, hab', -, -, -, -⟩ := pop_ok q1 v r.st r.hp hab
      unfold stepOp
      dsimp only []
      rw [heq]
      exact ⟨q1, hab', by rw [hlog, List.append_assoc]; rfl⟩

/-- The trace invariant holds after any operation sequence. -/
theorem runOps_inv (ops : List (Op T)) (r : RunSt T)
    (hinv : ∃ q, absRel q r.st r.hp ∧ r.pushedLog = r.poppedLog ++ q) :
    ∃ q, absRel q (runOps r ops).st (runOps r ops).hp ∧
      (runOps r ops).pushedLog = (runOps r ops).poppedLog ++ q := by
  induction ops generalizing r with
  | nil => exact hinv
  | cons op ops ih => exact ih (stepOp r op) (stepOp_inv r op hinv)

end TraceInvariant

section ModArith

theorem le_mod_eq (x n : Nat) (h1 : 0 < n) (h2 : x ≤ n) :
    x % n = if x = n then 0 else x := by
  split_ifs with he
  · rw [he]
    exact Nat.mod_self n
  · exact Nat.mod_eq_of_lt (by omega)

theorem mod_small (a n : Nat) (h1 : 0 < n) (h2 : a < 2 * n) :
    a % n = if a < n then a else a - n := by
  split_ifs with hlt
  · exact Nat.mod_eq_of_lt hlt
  · rw [Nat.mod_eq_sub_mod (by omega)]
    exact Nat.mod_eq_of_lt (by omega)

/-- On a buffer that is neither empty nor full, `getCount` computes the
forward modular distance from the head cursor to the tail cursor. -/
theorem getCount_mod {T : Type} (s : RingBuffer) (h : Heap T) (hw : Wf s h)
    (hemp : s.empty = false) (hne : s.getCount ≠ s.size) :
    s.getCount = (s.tail % s.size + (s.size - s.head % s.size)) % s.size := by
  have h1 := hw.size_pos
  have h2 := hw.head_le
  have h3 := hw.tail_le
  have h5 : s.tail ≠ 0 := by
    intro ht
    have := (hw.tail_zero ht).2
    rw [hemp] at this
    exact Bool.false_ne_true this
  rw [le_mod_eq s.tail s.size h1 h3, le_mod_eq s.head s.size h1 h2,
    mod_small _ s.size h1 (by split_ifs <;> omega)]
  simp [RingBuffer.getCount, RingBuffer.isEmpty, RingBuffer.getSize, hemp]
    at hne ⊢
  split_ifs at hne ⊢ <;> omega

end ModArith

section SanityChecks

/- Concrete evaluation of the model on the repository's own test
scenario (capacity 5, push 0..4, full, pop all): checked while
developing; kept as `example`s so they cannot be named by results. -/

example :
    RingBuffer.create 5 (0 : Nat) [] =
      (Except.ok ⟨5, 0, 0, 0, true⟩, [[0, 0, 0, 0, 0]]) := by rfl

example :
    RingBuffer.push ⟨5, 0, 0, 0, true⟩ [[0, 0, 0, 0, 0]] 7 =
      (Except.ok (), ⟨5, 0, 0, 1, false⟩, [[7, 0, 0, 0, 0]]) := by rfl

example :
    RingBuffer.pop ⟨5, 0, 0, 1, false⟩ [[7, 0, 0, 0, 0]] =
      (Except.ok 7, ⟨5, 0, 1, 1, true⟩) := by rfl

example : RingBuffer.getCount ⟨5, 0, 2, 1, false⟩ = 4 := by rfl

example :
    RingBuffer.back ⟨5, 0, 0, 2, false⟩ [[7, 9, 0, 0, 0]] = Except.ok 9 := by rfl

end SanityChecks

/-! ## The claims -/

/-- Claim C2: for every reachable buffer state, `getCount()` returns 0
if the buffer is empty, returns the capacity if the buffer is full
(holds `capacity` elements), and otherwise returns the forward modular
distance from head to tail; when `head == tail` the result is decided
solely by the empty flag; and `getFree()` always equals
`getSize() - getCount()`. -/
theorem C2_count_consistency {T : Type} [Inhabited T] (q : List T)
    (s : RingBuffer) (h : Heap T) (hr : ReachQ q s h) :
    (s.isEmpty = true → s.getCount = 0) ∧
    (q.length = s.getSize → s.getCount = s.getSize) ∧
    (s.isEmpty = false → q.length ≠ s.getSize →
      s.getCount = (s.tail % s.size + (s.size - s.head % s.size)) % s.size) ∧
    (s.head = s.tail → s.getCount = if s.empty = true then 0 else s.getSize) ∧
    s.getFree = s.getSize - s.getCount := by
  have hab := reachQ_absRel q s h hr
  obtain ⟨hw, hlen, -⟩ := hab
  refine ⟨?_, ?_, ?_, ?_, rfl⟩
  · intro he
    exact (count_zero_iff s h hw).mpr he
  · intro hq
    exact hlen.symm.trans hq
  · intro hemp hne
    rw [hlen] at hne
    exact getCount_mod s h hw hemp hne
  · intro hht
    cases hemp : s.empty
    · simp [RingBuffer.getCount, RingBuffer.isEmpty, RingBuffer.getSize,
        hemp, hht]
    · simp [RingBuffer.getCount, RingBuffer.isEmpty, RingBuffer.getSize,
        hemp, hht]

/-- Witness for C2 at a concrete reachable state: capacity 2 holding
one element. -/
theorem C2_count_consistency_witness :
    (RingBuffer.isEmpty ⟨2, 0, 0, 1, false⟩ = true →
      RingBuffer.getCount ⟨2, 0, 0, 1, false⟩ = 0) ∧
    ([(5 : Nat)].length = RingBuffer.getSize ⟨2, 0, 0, 1, false⟩ →
      RingBuffer.getCount ⟨2, 0, 0, 1, false⟩ =
        RingBuffer.getSize ⟨2, 0, 0, 1, false⟩) ∧
    (RingBuffer.isEmpty ⟨2, 0, 0, 1, false⟩ = false →
      [(5 : Nat)].length ≠ RingBuffer.getSize ⟨2, 0, 0, 1, false⟩ →
      RingBuffer.getCount ⟨2, 0, 0, 1, false⟩ =
        (RingBuffer.tail ⟨2, 0, 0, 1, false⟩ % RingBuffer.size ⟨2, 0, 0, 1, false⟩ +
          (RingBuffer.size ⟨2, 0, 0, 1, false⟩ -
            RingBuffer.head ⟨2, 0, 0, 1, false⟩ % RingBuffer.size ⟨2, 0, 0, 1, false⟩)) %
          RingBuffer.size ⟨2, 0, 0, 1, false⟩) ∧
    (RingBuffer.head ⟨2, 0, 0, 1, false⟩ = RingBuffer.tail ⟨2, 0, 0, 1, false⟩ →
      RingBuffer.getCount ⟨2, 0, 0, 1, false⟩ =
        if RingBuffer.empty ⟨2, 0, 0, 1, false⟩ = true then 0
        else RingBuffer.getSize ⟨2, 0, 0, 1, false⟩) ∧
    RingBuffer.getFree ⟨2, 0, 0, 1, false⟩ =
      RingBuffer.getSize ⟨2, 0, 0, 1, false⟩ -
        RingBuffer.getCount ⟨2, 0, 0, 1, false⟩ :=
  C2_count_consistency [5] ⟨2, 0, 0, 1, false⟩ [[5, 5]]
    (ReachQ.pushed [] ⟨2, 0, 0, 0, true⟩ [[5, 5]] 5 ⟨2, 0, 0, 1, false⟩ [[5, 5]]
      (ReachQ.created 2 5 [] ⟨2, 0, 0, 0, true⟩ [[5, 5]] rfl) rfl)

/-- Claim C3: `push` fails with `bufferFull` exactly on a full buffer
and a failed push returns the state and heap unchanged; `pop`, `front`
and `back` fail with `bufferEmpty` exactly on an empty buffer, leaving
everything unchanged. -/
theorem C3_failure_atomicity {T : Type} [Inhabited T] (q : List T)
    (s : RingBuffer) (h : Heap T) (v : T) (hr : ReachQ q s h) :
    (s.push h v = (Except.error RBErr.bufferFull, s, h) ↔ q.length = s.size) ∧
    (s.pop h = ((Except.error RBErr.bufferEmpty : Except RBErr T), s) ↔ q = []) ∧
    (s.front h = ((Except.error RBErr.bufferEmpty : Except RBErr T), s) ↔ q = []) ∧
    (s.back h = (Except.error RBErr.bufferEmpty : Except RBErr T) ↔ q = []) := by
  have hab := reachQ_absRel q s h hr
  have hcle := count_le_size s h hab.1
  have hlen := hab.2.1
  refine ⟨⟨?_, fun hq => push_fail q s h v hab hq⟩, ⟨?_, ?_⟩, ⟨?_, ?_⟩, ⟨?_, ?_⟩⟩
  · intro he
    by_contra hne
    have hlt : q.length < s.size := by omega
    have hok := (push_ok q s h v hab hlt).1
    rw [hok] at he
    injection he with he1 he2
    simp at he1
  · intro he
    cases q with
    | nil => rfl
    | cons w q1 =>
      obtain ⟨s', heq, -, -, -, -, -⟩ := pop_ok q1 w s h hab
      rw [heq] at he
      injection he with he1 he2
      simp at he1
  · intro hq
    subst hq
    exact pop_fail s h (empty_true_of_nil s h hab)
  · intro he
    cases q with
    | nil => rfl
    | cons w q1 =>
      obtain ⟨heq, -⟩ := front_ok q1 w s h hab
      rw [heq] at he
      injection he with he1 he2
      simp at he1
  · intro hq
    subst hq
    exact front_fail s h (empty_true_of_nil s h hab)
  · intro he
    cases q with
    | nil => rfl
    | cons w q1 =>
      rw [back_ok q1 w s h hab] at he
      simp at he
  · intro hq
    subst hq
    exact back_fail s h (empty_true_of_nil s h hab)

/-- Witness for C3 at a concrete reachable state: a full buffer of
capacity 1, so the push direction is non-vacuous. -/
theorem C3_failure_atomicity_witness :
    (RingBuffer.push ⟨1, 0, 0, 1, false⟩ [[4]] (9 : Nat) =
        (Except.error RBErr.bufferFull, ⟨1, 0, 0, 1, false⟩, [[4]]) ↔
      [(4 : Nat)].length = RingBuffer.size ⟨1, 0, 0, 1, false⟩) ∧
    (RingBuffer.pop ⟨1, 0, 0, 1, false⟩ [[4]] =
        ((Except.error RBErr.bufferEmpty : Except RBErr Nat), ⟨1, 0, 0, 1, false⟩) ↔
      [(4 : Nat)] = []) ∧
    (RingBuffer.front ⟨1, 0, 0, 1, false⟩ [[4]] =
        ((Except.error RBErr.bufferEmpty : Except RBErr Nat), ⟨1, 0, 0, 1, false⟩) ↔
      [(4 : Nat)] = []) ∧
    (RingBuffer.back ⟨1, 0, 0, 1, false⟩ [[4]] =
        (Except.error RBErr.bufferEmpty : Except RBErr Nat) ↔
      [(4 : Nat)] = []) :=
  C3_failure_atomicity [4] ⟨1, 0, 0, 1, false⟩ [[4]] 9
    (ReachQ.pushed [] ⟨1, 0, 0, 0, true⟩ [[4]] 4 ⟨1, 0, 0, 1, false⟩ [[4]]
      (ReachQ.created 1 4 [] ⟨1, 0, 0, 0, true⟩ [[4]] rfl) rfl)

/-- Claim C6: constructing with capacity 0 fails with
`invalidCapacity`; for every capacity `c ≥ 1` construction succeeds and
the fresh buffer has count 0, is empty, is not full, has `c` free
slots, and both cursors at 0. -/
theorem C6_construction {T : Type} [Inhabited T] (d : T) (h : Heap T)
    (c : Nat) (hc : 1 ≤ c) :
    RingBuffer.create 0 d h = (Except.error RBErr.invalidCapacity, h) ∧
    ∃ s h', RingBuffer.create c d h = (Except.ok s, h') ∧
      s.getCount = 0 ∧ s.isEmpty = true ∧ s.isFull = false ∧
      s.getFree = c ∧ s.head = 0 ∧ s.tail = 0 ∧ s.getSize = c := by
  constructor
  · rw [RingBuffer.create, if_pos rfl]
  · have hco := create_ok c d h (by omega)
    have hcnt : RingBuffer.getCount (⟨c, h.length, 0, 0, true⟩ : RingBuffer) = 0 := by
      have := hco.2.2.1
      simpa using this.symm
    refine ⟨⟨c, h.length, 0, 0, true⟩, h ++ [List.replicate c d], hco.1,
      hcnt, rfl, ?_, ?_, rfl, rfl, rfl⟩
    · simp [RingBuffer.isFull, hcnt, RingBuffer.getSize]
      omega
    · simp [RingBuffer.getFree, RingBuffer.getSize, hcnt]

/-- Witness for C6 at capacity 5. -/
theorem C6_construction_witness :
    RingBuffer.create 0 (0 : Nat) [] = (Except.error RBErr.invalidCapacity, []) ∧
    ∃ s h', RingBuffer.create 5 (0 : Nat) [] = (Except.ok s, h') ∧
      s.getCount = 0 ∧ s.isEmpty = true ∧ s.isFull = false ∧
      s.getFree = 5 ∧ s.head = 0 ∧ s.tail = 0 ∧ s.getSize = 5 :=
  C6_construction 0 [] 5 (by decide)

/-- Counterexample to claim C7 as stated: after pushing one value into
a fresh buffer of capacity 1, the reachable state has its tail cursor
equal to the capacity (the pointer sits one past the end until the next
lazy wrap), so the cursors do not always lie in `[0, capacity)`. -/
theorem C7_cursor_range_counterexample :
    ReachQ [(7 : Nat)] ⟨1, 0, 0, 1, false⟩ [[7]] ∧
    ¬(RingBuffer.tail ⟨1, 0, 0, 1, false⟩ <
        RingBuffer.size ⟨1, 0, 0, 1, false⟩) := by
  constructor
  · exact ReachQ.pushed [] ⟨1, 0, 0, 0, true⟩ [[7]] 7 ⟨1, 0, 0, 1, false⟩ [[7]]
      (ReachQ.created 1 7 [] ⟨1, 0, 0, 0, true⟩ [[7]] rfl) rfl
  · decide

/-- Claim C7 (amended): in every reachable state the head and tail
cursors lie in the closed range `[0, capacity]` — the offset `capacity`
(one past the end) occurs transiently and is wrapped to 0 lazily by the
next operation that uses the cursor. -/
theorem C7_cursor_range_amended {T : Type} [Inhabited T] (q : List T)
    (s : RingBuffer) (h : Heap T) (hr : ReachQ q s h) :
    s.head ≤ s.size ∧ s.tail ≤ s.size := by
  have hab := reachQ_absRel q s h hr
  exact ⟨hab.1.head_le, hab.1.tail_le⟩

/-- Witness for the amended C7 at a concrete reachable state. -/
theorem C7_cursor_range_amended_witness :
    RingBuffer.head ⟨1, 0, 0, 1, false⟩ ≤ RingBuffer.size ⟨1, 0, 0, 1, false⟩ ∧
    RingBuffer.tail ⟨1, 0, 0, 1, false⟩ ≤ RingBuffer.size ⟨1, 0, 0, 1, false⟩ :=
  C7_cursor_range_amended [(7 : Nat)] ⟨1, 0, 0, 1, false⟩ [[7]]
    (ReachQ.pushed [] ⟨1, 0, 0, 0, true⟩ [[7]] 7 ⟨1, 0, 0, 1, false⟩ [[7]]
      (ReachQ.created 1 7 [] ⟨1, 0, 0, 0, true⟩ [[7]] rfl) rfl)

/-- Counterexample to claim C8 as stated: copy assignment is an
operation of the API, and assigning a capacity-3 buffer into a
capacity-1 buffer changes the latter's reported capacity from 1 to 3,
so the capacity set at construction does not survive every API
operation. -/
theorem C8_capacity_counterexample :
    RingBuffer.create 1 (0 : Nat) [] = (Except.ok ⟨1, 0, 0, 0, true⟩, [[0]]) ∧
    RingBuffer.create 3 (0 : Nat) [[0]] =
      (Except.ok ⟨3, 1, 0, 0, true⟩, [[0], [0, 0, 0]]) ∧
    RingBuffer.getSize ⟨1, 0, 0, 0, true⟩ = 1 ∧
    (RingBuffer.assign ⟨1, 0, 0, 0, true⟩ ⟨3, 1, 0, 0, true⟩ [[0], [0, 0, 0]]
        false).1.getSize = 3 :=
  ⟨rfl, rfl, rfl, rfl⟩

/-- Claim C8 (amended): the capacity reported by `getSize()` is
unchanged by `push`, `pop`, `front`, the count/free queries (which do
not mutate at all), copy construction, and any sequence of push/pop
operations; copy assignment instead replaces the capacity with the
right-hand side's capacity (and self-assignment changes nothing). -/
theorem C8_capacity_amended {T : Type} [Inhabited T] (s l r : RingBuffer)
    (h : Heap T) (v : T) (ops : List (Op T)) (r0 : RunSt T) :
    (s.push h v).2.1.getSize = s.getSize ∧
    (s.pop h).2.getSize = s.getSize ∧
    (s.front h).2.getSize = s.getSize ∧
    (RingBuffer.copyCtor s h).1.getSize = s.getSize ∧
    (runOps r0 ops).st.getSize = r0.st.getSize ∧
    (RingBuffer.assign l r h false).1.getSize = r.getSize ∧
    (RingBuffer.assign l r h true).1.getSize = l.getSize := by
  refine ⟨(push_fields s h v).1, (pop_fields s h).1, ?_, rfl,
    (runOps_frame ops r0).2.1, ?_, rfl⟩
  · unfold RingBuffer.front
    split_ifs <;> rfl
  · simp [RingBuffer.assign, RingBuffer.copyCtor, RingBuffer.swapRB,
      RingBuffer.getSize]

/-- Claim C9: the three error kinds are pairwise distinguishable — they
carry pairwise distinct (exception class, message) pairs — and each
operation can only raise its own kind: construction only
`invalidCapacity`, push only `bufferFull`, pop/front/back only
`bufferEmpty`. -/
theorem C9_error_distinguishability {T : Type} [Inhabited T] :
    ((excClass RBErr.invalidCapacity, excMessage RBErr.invalidCapacity) ≠
        (excClass RBErr.bufferFull, excMessage RBErr.bufferFull) ∧
      (excClass RBErr.invalidCapacity, excMessage RBErr.invalidCapacity) ≠
        (excClass RBErr.bufferEmpty, excMessage RBErr.bufferEmpty) ∧
      (excClass RBErr.bufferFull, excMessage RBErr.bufferFull) ≠
        (excClass RBErr.bufferEmpty, excMessage RBErr.bufferEmpty)) ∧
    (∀ (sz : Nat) (d : T) (h : Heap T) (e : RBErr) (h' : Heap T),
      RingBuffer.create sz d h = (Except.error e, h') → e = RBErr.invalidCapacity) ∧
    (∀ (s : RingBuffer) (h : Heap T) (v : T) (e : RBErr) (p : RingBuffer × Heap T),
      s.push h v = (Except.error e, p) → e = RBErr.bufferFull) ∧
    (∀ (s s' : RingBuffer) (h : Heap T) (e : RBErr),
      s.pop h = (Except.error e, s') → e = RBErr.bufferEmpty) ∧
    (∀ (s s' : RingBuffer) (h : Heap T) (e : RBErr),
      s.front h = (Except.error e, s') → e = RBErr.bufferEmpty) ∧
    (∀ (s : RingBuffer) (h : Heap T) (e : RBErr),
      s.back h = Except.error e → e = RBErr.bufferEmpty) := by
  refine ⟨⟨by decide, by decide, by decide⟩, ?_, ?_, ?_, ?_, ?_⟩
  · intro sz d h e h' he
    unfold RingBuffer.create at he
    split_ifs at he
    · injection he with he1 he2
      injection he1 with he1
      exact he1.symm
    · cases he
  · intro s h v e p he
    unfold RingBuffer.push at he
    split_ifs at he
    · injection he with he1 he2
      injection he1 with he1
      exact he1.symm
    all_goals
      dsimp only [] at he
      cases he
  · intro s s' h e he
    unfold RingBuffer.pop RingBuffer.front at he
    dsimp only [RingBuffer.isEmpty] at he
    split_ifs at he
    · injection he with he1 he2
      injection he1 with he1
      exact he1.symm
    all_goals
      dsimp only [] at he
      split_ifs at he <;> cases he
  · intro s s' h e he
    unfold RingBuffer.front at he
    split_ifs at he
    · injection he with he1 he2
      injection he1 with he1
      exact he1.symm
    all_goals
      dsimp only [] at he
      cases he
  · intro s h e he
    unfold RingBuffer.back at he
    split_ifs at he
    · injection he with he1
      exact he1.symm
    all_goals cases he

/-- Witness for C9: a concrete failing call of each kind, together with
the conclusions drawn from the theorem. -/
theorem C9_error_distinguishability_witness :
    RingBuffer.create 0 (0 : Nat) [] = (Except.error RBErr.invalidCapacity, []) ∧
    RBErr.invalidCapacity = RBErr.invalidCapacity ∧
    RingBuffer.push ⟨1, 0, 0, 1, false⟩ [[4]] (9 : Nat) =
      (Except.error RBErr.bufferFull, ⟨1, 0, 0, 1, false⟩, [[4]]) ∧
    RBErr.bufferFull = RBErr.bufferFull ∧
    RingBuffer.pop ⟨1, 0, 0, 0, true⟩ ([[0]] : Heap Nat) =
      (Except.error RBErr.bufferEmpty, ⟨1, 0, 0, 0, true⟩) ∧
    RBErr.bufferEmpty = RBErr.bufferEmpty :=
  ⟨rfl,
   (C9_error_distinguishability (T := Nat)).2.1 0 0 [] RBErr.invalidCapacity [] rfl,
   rfl,
   (C9_error_distinguishability (T := Nat)).2.2.1 ⟨1, 0, 0, 1, false⟩ [[4]] 9
     RBErr.bufferFull (⟨1, 0, 0, 1, false⟩, [[4]]) rfl,
   rfl,
   (C9_error_distinguishability (T := Nat)).2.2.2.1 ⟨1, 0, 0, 0, true⟩
     ⟨1, 0, 0, 0, true⟩ [[0]] RBErr.bufferEmpty rfl⟩

/-- Claim C10: in every reachable state the empty flag is raised
exactly when the buffer holds zero elements, `isEmpty()` agrees with
`getCount() == 0`, and the buffer is never simultaneously empty and
full. -/
theorem C10_empty_flag_coherence {T : Type} [Inhabited T] (q : List T)
    (s : RingBuffer) (h : Heap T) (hr : ReachQ q s h) :
    (s.empty = true ↔ s.getCount = 0) ∧
    s.isEmpty = (s.getCount == 0) ∧
    ¬(s.isEmpty = true ∧ s.isFull = true) := by
  have hab := reachQ_absRel q s h hr
  have hiff := count_zero_iff s h hab.1
  refine ⟨hiff.symm, ?_, ?_⟩
  · cases hemp : s.empty
    · have hnz : s.getCount ≠ 0 := by
        intro hc
        have := hiff.mp hc
        rw [hemp] at this
        exact Bool.false_ne_true this
      simp [RingBuffer.isEmpty, hemp, hnz]
    · have hz : s.getCount = 0 := hiff.mpr hemp
      simp [RingBuffer.isEmpty, hemp, hz]
  · rintro ⟨he, hf⟩
    have hz : s.getCount = 0 := hiff.mpr he
    have hfe : s.getCount = s.getSize := by
      simpa [RingBuffer.isFull] using hf
    have hpos := hab.1.size_pos
    rw [hz] at hfe
    simp [RingBuffer.getSize] at hfe
    omega

/-- Witness for C10 at a concrete reachable state. -/
theorem C10_empty_flag_coherence_witness :
    (RingBuffer.empty ⟨2, 0, 0, 1, false⟩ = true ↔
      RingBuffer.getCount ⟨2, 0, 0, 1, false⟩ = 0) ∧
    RingBuffer.isEmpty ⟨2, 0, 0, 1, false⟩ =
      (RingBuffer.getCount ⟨2, 0, 0, 1, false⟩ == 0) ∧
    ¬(RingBuffer.isEmpty ⟨2, 0, 0, 1, false⟩ = true ∧
      RingBuffer.isFull ⟨2, 0, 0, 1, false⟩ = true) :=
  C10_empty_flag_coherence [(6 : Nat)] ⟨2, 0, 0, 1, false⟩ [[6, 6]]
    (ReachQ.pushed [] ⟨2, 0, 0, 0, true⟩ [[6, 6]] 6 ⟨2, 0, 0, 1, false⟩ [[6, 6]]
      (ReachQ.created 2 6 [] ⟨2, 0, 0, 0, true⟩ [[6, 6]] rfl) rfl)

/-- Claim C1: pushing `v1 ... vk` (k ≤ capacity) into a fresh buffer
and popping k times returns them in the same order; and over any
sequence of push/pop operations on a fresh buffer, the log of
successfully popped values is a prefix of the log of successfully
pushed values (the n-th successful pop returns the n-th successfully
pushed value). -/
theorem C1_fifo_order {T : Type} [Inhabited T] (c : Nat) (d : T) (h : Heap T)
    (vs : List T) (ops : List (Op T)) (s0 : RingBuffer) (h0 : Heap T)
    (hc : RingBuffer.create c d h = (Except.ok s0, h0)) (hlen : vs.length ≤ c) :
    (∃ s1 h1, pushAll s0 h0 vs = (Except.ok (), s1, h1) ∧
      (popN s1 h1 vs.length).1 = Except.ok vs) ∧
    (∃ q, (runOps ⟨s0, h0, [], []⟩ ops).pushedLog =
      (runOps ⟨s0, h0, [], []⟩ ops).poppedLog ++ q) := by
  have hcpos : 0 < c := by
    by_contra hc0
    have hz : c = 0 := by omega
    subst hz
    rw [RingBuffer.create, if_pos rfl] at hc
    cases hc
  have hco := create_ok c d h hcpos
  rw [hco.1] at hc
  injection hc with hc1 hc2
  injection hc1 with hc1
  subst hc1
  subst hc2
  have hab0 := hco.2
  constructor
  · obtain ⟨s1, h1, heq1, hab1, -, -, -, -⟩ :=
      pushAll_ok vs [] _ _ hab0 (by simpa using hlen)
    refine ⟨s1, h1, heq1, ?_⟩
    obtain ⟨s2, heq2, -⟩ := popN_ok vs.length (([] : List T) ++ vs) s1 h1 hab1
      (by simp)
    rw [heq2]
    simp
  · obtain ⟨q, -, hlog⟩ := runOps_inv ops
      ⟨⟨c, h.length, 0, 0, true⟩, h ++ [List.replicate c d], [], []⟩
      ⟨[], hab0, rfl⟩
    exact ⟨q, hlog⟩

/-- Witness for C1: capacity 3, values 1,2,3, and an operation sequence
containing a push and three pops. -/
theorem C1_fifo_order_witness :
    (∃ s1 h1, pushAll (⟨3, 0, 0, 0, true⟩ : RingBuffer) [[0, 0, 0]] [1, 2, 3] =
        (Except.ok (), s1, h1) ∧
      (popN s1 h1 [(1 : Nat), 2, 3].length).1 = Except.ok [1, 2, 3]) ∧
    (∃ q, (runOps ⟨⟨3, 0, 0, 0, true⟩, [[0, 0, 0]], [], []⟩
        [Op.pushOp (9 : Nat), Op.popOp, Op.popOp]).pushedLog =
      (runOps ⟨⟨3, 0, 0, 0, true⟩, [[0, 0, 0]], [], []⟩
        [Op.pushOp (9 : Nat), Op.popOp, Op.popOp]).poppedLog ++ q) :=
  C1_fifo_order 3 0 [] [1, 2, 3] [Op.pushOp 9, Op.popOp, Op.popOp]
    ⟨3, 0, 0, 0, true⟩ [[0, 0, 0]] rfl (by decide)

/-- Claim C4: filling a fresh buffer of capacity c, popping m < c
elements and pushing m new ones all succeeds, the count equals the
capacity again, and draining returns all elements in FIFO order across
the wrap boundary. -/
theorem C4_wraparound {T : Type} [Inhabited T] (c m : Nat) (d : T) (h : Heap T)
    (vs ws : List T) (s0 : RingBuffer) (h0 : Heap T)
    (hc : RingBuffer.create c d h = (Except.ok s0, h0))
    (hvs : vs.length = c) (hws : ws.length = m) (hm : m < c) :
    ∃ s1 h1 s2 s3 h3,
      pushAll s0 h0 vs = (Except.ok (), s1, h1) ∧
      popN s1 h1 m = (Except.ok (vs.take m), s2) ∧
      pushAll s2 h1 ws = (Except.ok (), s3, h3) ∧
      s3.getCount = c ∧
      (popN s3 h3 c).1 = Except.ok (vs.drop m ++ ws) := by
  have hcpos : 0 < c := by omega
  have hco := create_ok c d h hcpos
  rw [hco.1] at hc
  injection hc with hc1 hc2
  injection hc1 with hc1
  subst hc1
  subst hc2
  have hab0 := hco.2
  obtain ⟨s1, h1, heq1, hab1, hsz1, -, -, -⟩ :=
    pushAll_ok vs [] _ _ hab0 (by simpa using Nat.le_of_eq hvs)
  have hab1' : absRel vs s1 h1 := by simpa using hab1
  obtain ⟨s2, heq2, hab2, hsz2, -, -⟩ := popN_ok m vs s1 h1 hab1' (by omega)
  obtain ⟨s3, h3, heq3, hab3, hsz3, -, -, -⟩ :=
    pushAll_ok ws (vs.drop m) s2 h1 hab2
      (by simp [hvs, hws, hsz2, hsz1]; omega)
  have hcnt : s3.getCount = c := by
    have := hab3.2.1
    simp [hvs, hws] at this
    omega
  refine ⟨s1, h1, s2, s3, h3, heq1, heq2, heq3, hcnt, ?_⟩
  obtain ⟨s4, heq4, -⟩ := popN_ok c (vs.drop m ++ ws) s3 h3 hab3
    (by simp [hvs, hws]; omega)
  rw [heq4]
  have htake : (vs.drop m ++ ws).take c = vs.drop m ++ ws := by
    apply List.take_of_length_le
    simp [hvs, hws]
    omega
  rw [htake]

/-- Witness for C4: capacity 2, fill with 1,2, pop one, push 3, drain
across the wrap boundary. -/
theorem C4_wraparound_witness :
    ∃ s1 h1 s2 s3 h3,
      pushAll (⟨2, 0, 0, 0, true⟩ : RingBuffer) [[0, 0]] [1, 2] =
        (Except.ok (), s1, h1) ∧
      popN s1 h1 1 = (Except.ok ([(1 : Nat), 2].take 1), s2) ∧
      pushAll s2 h1 [3] = (Except.ok (), s3, h3) ∧
      s3.getCount = 2 ∧
      (popN s3 h3 2).1 = Except.ok ([(1 : Nat), 2].drop 1 ++ [3]) :=
  C4_wraparound 2 1 0 [] [1, 2] [3] ⟨2, 0, 0, 0, true⟩ [[0, 0]] rfl rfl rfl
    (by decide)

/-- Claim C5: a buffer built by copy construction (equivalently, the
result of copy assignment) has the same capacity, cursor offsets, flag,
and observable counts as the original, drains to the same value
sequence as the original would, and the two buffers are independent:
any sequence of push/pop operations on either one leaves the other's
count, front and back observations unchanged. -/
theorem C5_copy_independence {T : Type} [Inhabited T] (q : List T)
    (A : RingBuffer) (h : Heap T) (B : RingBuffer) (h' : Heap T)
    (hr : ReachQ q A h) (hcp : RingBuffer.copyCtor A h = (B, h')) :
    (B.getSize = A.getSize ∧ B.head = A.head ∧ B.tail = A.tail ∧
      B.empty = A.empty) ∧
    (B.getCount = A.getCount ∧ B.isEmpty = A.isEmpty ∧
      B.getFree = A.getFree) ∧
    ((popN B h' q.length).1 = Except.ok q ∧
      (popN A h' q.length).1 = Except.ok q) ∧
    (∀ ops : List (Op T),
      RingBuffer.front A (runOps ⟨B, h', [], []⟩ ops).hp = RingBuffer.front A h' ∧
      RingBuffer.back A (runOps ⟨B, h', [], []⟩ ops).hp = RingBuffer.back A h') ∧
    (∀ ops : List (Op T),
      RingBuffer.front B (runOps ⟨A, h', [], []⟩ ops).hp = RingBuffer.front B h' ∧
      RingBuffer.back B (runOps ⟨A, h', [], []⟩ ops).hp = RingBuffer.back B h') ∧
    (∀ L : RingBuffer, RingBuffer.assign L A h false = (B, h')) := by
  have hab := reachQ_absRel q A h hr
  have hco := copy_ok q A h hab
  rw [hco.1] at hcp
  injection hcp with hcp1 hcp2
  subst hcp1
  subst hcp2
  have hblt := hab.1.buf_lt
  have habB := hco.2
  have habA' : absRel q A (h ++ [heapGet h A.buf]) :=
    absRel_frame q A h _ hab (heapGet_append_lt h _ A.buf hblt) (by simp)
  have hAbufne : A.buf ≠ h.length := by omega
  refine ⟨⟨rfl, rfl, rfl, rfl⟩, ⟨rfl, rfl, rfl⟩, ⟨?_, ?_⟩, ?_, ?_, ?_⟩
  · obtain ⟨s', heq, -⟩ := popN_ok q.length q _ _ habB (Nat.le_refl _)
    rw [heq, List.take_of_length_le (Nat.le_refl _)]
  · obtain ⟨s', heq, -⟩ := popN_ok q.length q A _ habA' (Nat.le_refl _)
    rw [heq, List.take_of_length_le (Nat.le_refl _)]
  · intro ops
    have hfr := (runOps_frame ops ⟨⟨A.size, h.length, A.head, A.tail, A.empty⟩,
      h ++ [heapGet h A.buf], [], []⟩).2.2.1
    have hg := hfr A.buf hAbufne
    exact ⟨front_heap_congr A _ _ hg, back_heap_congr A _ _ hg⟩
  · intro ops
    have hfr := (runOps_frame ops ⟨A,
      h ++ [heapGet h A.buf], [], []⟩).2.2.1
    have hg := hfr h.length (show h.length ≠ A.buf by omega)
    exact ⟨front_heap_congr _ _ _ hg, back_heap_congr _ _ _ hg⟩
  · intro L
    simp [RingBuffer.assign, RingBuffer.swapRB, hco.1]

/-- Witness for C5 at a concrete reachable one-element buffer and its
copy. -/
theorem C5_copy_independence_witness :
    (RingBuffer.getSize ⟨1, 1, 0, 1, false⟩ = RingBuffer.getSize ⟨1, 0, 0, 1, false⟩ ∧
      RingBuffer.head ⟨1, 1, 0, 1, false⟩ = RingBuffer.head ⟨1, 0, 0, 1, false⟩ ∧
      RingBuffer.tail ⟨1, 1, 0, 1, false⟩ = RingBuffer.tail ⟨1, 0, 0, 1, false⟩ ∧
      RingBuffer.empty ⟨1, 1, 0, 1, false⟩ = RingBuffer.empty ⟨1, 0, 0, 1, false⟩) ∧
    (RingBuffer.getCount ⟨1, 1, 0, 1, false⟩ = RingBuffer.getCount ⟨1, 0, 0, 1, false⟩ ∧
      RingBuffer.isEmpty ⟨1, 1, 0, 1, false⟩ = RingBuffer.isEmpty ⟨1, 0, 0, 1, false⟩ ∧
      RingBuffer.getFree ⟨1, 1, 0, 1, false⟩ = RingBuffer.getFree ⟨1, 0, 0, 1, false⟩) ∧
    ((popN (⟨1, 1, 0, 1, false⟩ : RingBuffer) [[4], [4]] [(4 : Nat)].length).1 =
        Except.ok [4] ∧
      (popN (⟨1, 0, 0, 1, false⟩ : RingBuffer) [[4], [4]] [(4 : Nat)].length).1 =
        Except.ok [4]) ∧
    (∀ ops : List (Op Nat),
      RingBuffer.front ⟨1, 0, 0, 1, false⟩
          (runOps ⟨⟨1, 1, 0, 1, false⟩, [[4], [4]], [], []⟩ ops).hp =
        RingBuffer.front ⟨1, 0, 0, 1, false⟩ [[4], [4]] ∧
      RingBuffer.back ⟨1, 0, 0, 1, false⟩
          (runOps ⟨⟨1, 1, 0, 1, false⟩, [[4], [4]], [], []⟩ ops).hp =
        RingBuffer.back ⟨1, 0, 0, 1, false⟩ [[4], [4]]) ∧
    (∀ ops : List (Op Nat),
      RingBuffer.front ⟨1, 1, 0, 1, false⟩
          (runOps ⟨⟨1, 0, 0, 1, false⟩, [[4], [4]], [], []⟩ ops).hp =
        RingBuffer.front ⟨1, 1, 0, 1, false⟩ [[4], [4]] ∧
      RingBuffer.back ⟨1, 1, 0, 1, false⟩
          (runOps ⟨⟨1, 0, 0, 1, false⟩, [[4], [4]], [], []⟩ ops).hp =
        RingBuffer.back ⟨1, 1, 0, 1, false⟩ [[4], [4]]) ∧
    (∀ L : RingBuffer,
      RingBuffer.assign L ⟨1, 0, 0, 1, false⟩ [[4]] false =
        (⟨1, 1, 0, 1, false⟩, [[4], [4]])) :=
  C5_copy_independence [4] ⟨1, 0, 0, 1, false⟩ [[4]] ⟨1, 1, 0, 1, false⟩
    [[4], [4]]
    (ReachQ.pushed [] ⟨1, 0, 0, 0, true⟩ [[4]] 4 ⟨1, 0, 0, 1, false⟩ [[4]]
      (ReachQ.created 1 4 [] ⟨1, 0, 0, 0, true⟩ [[4]] rfl) rfl)
    rfl
